import Mathlib

/-!
Verification development for the exam-scheduler repository
(`src/exam_scheduler.py`).  The Python code is shallowly embedded:

* `schedule_exams` (lines 117-202): the course distribution loop over the
  fixed 7-entry day list, the FN/AN split, the per-day-label dictionaries
  and the final one-row DataFrames are modelled by `distribDays`,
  `buildSlotDict` and `scheduleExamsCore`/`scheduleExams`.  The in-place
  `random.shuffle` is modelled by an explicit `shuffle` parameter
  (claims that need it assume it is a permutation).
* `get_all_pre_mid_courses` / `get_all_post_mid_courses` (lines 15-115):
  modelled by `collectSession` over abstract `ExcelLoader` collaborators
  passed as parameters; the pandas department filter
  `str.contains(f"^dept$", regex=True)` is modelled by the literal
  matcher `pyAnchoredSearch` with Python's `re` semantics for `$`.
-/

/-- One positional exam day of the distribution loop: the day label and the
courses appended to the forenoon and afternoon session of that loop
iteration (lines 151-177 of `exam_scheduler.py`). -/
structure DaySched where
  day : String
  fn : List String
  an : List String
deriving Repr, DecidableEq

/-- Allocation of `courses_per_day_base + 1` for the first `rem` positional
days and `base` afterwards (lines 153-156): what the loop computes for
positional day `i` before the floor-up rule. -/
def alloc (base rem i : Nat) : Nat :=
  base + (if i < rem then 1 else 0)

/-- Sum of `alloc base rem` over `n` consecutive day indices starting at
`dayIdx`. -/
def allocSum (base rem : Nat) : Nat → Nat → Nat
  | _, 0 => 0
  | dayIdx, n + 1 => alloc base rem dayIdx + allocSum base rem (dayIdx + 1) n

/-- The list of `alloc base rem` values for `n` consecutive day indices
starting at `dayIdx`. -/
def allocList (base rem : Nat) : Nat → Nat → List Nat
  | _, 0 => []
  | dayIdx, n + 1 => alloc base rem dayIdx :: allocList base rem (dayIdx + 1) n

/-- The computation of `courses_this_day` (lines 153-160): the base/remainder
allocation, floored up to 1 when courses remain unassigned and the allocation
is 0. -/
def courseThisDay (cs : List String) (base rem dayIdx cursor : Nat) : Nat :=
  let ctd0 := alloc base rem dayIdx
  if cursor < cs.length ∧ ctd0 = 0 then 1 else ctd0

/-- Line 164, `fn_count = (courses_this_day + 1) // 2`. -/
def fnCountOf (ctd : Nat) : Nat := (ctd + 1) / 2

/-- The courses appended by one slot loop (lines 168-171 / 174-177): starting
at `cursor`, append up to `count` consecutive entries of the shuffled list,
stopping when the cursor reaches the end. -/
def takeSlot (cs : List String) (cursor count : Nat) : List String :=
  (cs.drop cursor).take count

/-- The distribution loop of `schedule_exams` (lines 149-177): walk the day
list, allocate `courses_this_day` per positional day, split it FN-first, and
advance one shared cursor across the whole distribution.  Returns the
positional per-day schedules and the final cursor. -/
def distribDays (cs : List String) (base rem : Nat) :
    List String → Nat → Nat → List DaySched × Nat
  | [], _, cursor => ([], cursor)
  | day :: rest, dayIdx, cursor =>
    let ctd := courseThisDay cs base rem dayIdx cursor
    let fnL := takeSlot cs cursor (fnCountOf ctd)
    let anL := takeSlot cs (cursor + fnL.length) (ctd - fnCountOf ctd)
    let next := distribDays cs base rem rest (dayIdx + 1) (cursor + fnL.length + anL.length)
    (⟨day, fnL, anL⟩ :: next.1, next.2)

/-- The fixed day-label sequence of line 136: `['Saturday', 'Monday',
'Tuesday', 'Wednesday', 'Thursday', 'Friday', 'Monday']`. -/
def examDaysFull : List String :=
  ["Saturday", "Monday", "Tuesday", "Wednesday", "Thursday", "Friday", "Monday"]

/-- Python's `xs[:n]` list slicing (line 137), including the negative-index
semantics: a negative `n` drops `|n|` entries from the end (empty result when
`|n| ≥ len(xs)`). -/
def pySliceTo (xs : List String) (n : Int) : List String :=
  if 0 ≤ n then xs.take n.toNat
  else xs.take (xs.length - (-n).toNat)

/-- The positional per-day schedules produced by the distribution loop of
`schedule_exams` for the default `num_days = 7` on an (already shuffled)
course list `cs`. -/
def distribute7 (cs : List String) : List DaySched :=
  (distribDays cs (cs.length / 7) (cs.length % 7) examDaysFull 0 0).1

/-- Number of courses assigned to each positional day. -/
def dayCounts (scheds : List DaySched) : List Nat :=
  scheds.map (fun d => d.fn.length + d.an.length)

/-- Number of courses assigned to positional day `i` (0 when out of range). -/
def dayCount (scheds : List DaySched) (i : Nat) : Nat :=
  (dayCounts scheds).getD i 0

/-- The dict comprehension of lines 141-142 that maps each day of `exam_days`
to an empty list: keys in first-occurrence order, one entry per distinct label
(a repeated label re-binds the same key). -/
def dictInit (days : List String) : List (String × List String) :=
  days.foldl (fun m d => if m.any (fun p => p.1 == d) then m else m ++ [(d, [])]) []

/-- Repeated `schedule[day].append(...)` over a list: extend the bucket stored
under `key` (Python dict update; every label of the loop is a key of the
pre-initialized dict, so the no-entry case never fires). -/
def dictAppend : List (String × List String) → String → List String → List (String × List String)
  | [], _, _ => []
  | (k, v) :: rest, key, items =>
    if k == key then (k, v ++ items) :: rest
    else (k, v) :: dictAppend rest key items

/-- The per-label schedule dictionary built by the loop (lines 141-177): start
from the initialized dict and append each positional day's slot courses under
that day's label, in loop order. -/
def buildSlotDict (days : List String) (slot : DaySched → List String)
    (scheds : List DaySched) : List (String × List String) :=
  scheds.foldl (fun m d => dictAppend m d.day (slot d)) (dictInit days)

/-- Lines 181-200: turn a schedule dictionary into the one-row DataFrame,
joining each bucket with `', '` (an empty bucket renders as `''`). -/
def renderDf (dict : List (String × List String)) : List (String × String) :=
  dict.map (fun p => (p.1, String.intercalate ", " p.2))

/-- Reading a day's cell out of a rendered DataFrame, as the renderer does at
lines 413-418: the column's single cell when the column exists, `''`
otherwise. -/
def getCell (cols : List (String × String)) (day : String) : String :=
  ((cols.find? (fun p => p.1 == day)).map Prod.snd).getD ""

/-- Keep-first deduplication pass, accumulator of already seen values. -/
def uniqueFirstAux (seen : List String) : List String → List String
  | [] => []
  | x :: rest =>
    if seen.contains x then uniqueFirstAux seen rest
    else x :: uniqueFirstAux (x :: seen) rest

/-- Line 128, `courses_df['Course Code'].dropna().unique().tolist()`: drop
the missing identifiers, then keep the first occurrence of each value in
order. -/
def dropNaUnique (col : List (Option String)) : List String :=
  uniqueFirstAux [] (col.filterMap id)

/-- The input DataFrame of `schedule_exams`, reduced to what the function
reads: whether it has rows (`courses_df.empty`), and the `Course Code`
column when present (`none` models an absent column; a `none` cell models a
missing identifier). -/
structure CoursesDF where
  numRows : Nat
  courseCodeCol : Option (List (Option String))

/-- The body of `schedule_exams` up to the schedule dictionaries (lines
117-177): empty input or missing/empty identifier column gives two
empty results; an empty sliced day list makes line 146 divide by zero
(`ZeroDivisionError`); otherwise the distribution loop runs on the shuffled
unique identifiers.  `shuffle` stands for `random.shuffle`. -/
def scheduleExamsCore (df : CoursesDF) (shuffle : List String → List String)
    (numDays : Int) :
    Except String (List (String × List String) × List (String × List String)) :=
  if df.numRows = 0 then Except.ok ([], [])
  else
    match df.courseCodeCol with
    | none => Except.ok ([], [])
    | some col =>
      let course_list := shuffle (dropNaUnique col)
      if course_list.length = 0 then Except.ok ([], [])
      else
        let exam_days := pySliceTo examDaysFull numDays
        if exam_days.length = 0 then Except.error "ZeroDivisionError"
        else
          let scheds := (distribDays course_list (course_list.length / exam_days.length)
              (course_list.length % exam_days.length) exam_days 0 0).1
          Except.ok (buildSlotDict exam_days DaySched.fn scheds,
                     buildSlotDict exam_days DaySched.an scheds)

/-- The full `schedule_exams` (lines 117-202): the schedule dictionaries
rendered into the returned pair of one-row DataFrames. -/
def scheduleExams (df : CoursesDF) (shuffle : List String → List String)
    (numDays : Int) :
    Except String (List (String × String) × List (String × String)) :=
  match scheduleExamsCore df shuffle numDays with
  | Except.ok (f, a) => Except.ok (renderDf f, renderDf a)
  | Except.error e => Except.error e

/-- Concatenation of all bucket sequences of an assignment in day order, FN
before AN within each day (the two dictionaries share the same key list in
the same order). -/
def concatAssignment (fnD anD : List (String × List String)) : List String :=
  ((fnD.zip anD).map (fun p => p.1.2 ++ p.2.2)).flatten

/-- Concatenation of the positional per-day schedules in loop order, FN before
AN within each positional day. -/
def concatPositional (scheds : List DaySched) : List String :=
  (scheds.map (fun d => d.fn ++ d.an)).flatten

/-- Match a literal character sequence at the start of the input, returning
the unconsumed rest. -/
def matchLit : List Char → List Char → Option (List Char)
  | [], s => some s
  | _ :: _, [] => none
  | c :: cs, x :: xs => if x = c then matchLit cs xs else none

/-- Python `re` semantics of a final `$` without `re.MULTILINE`: it matches at
the end of the string, or just before a newline that ends the string. -/
def matchDollar : List Char → Bool
  | [] => true
  | [c] => c == '\n'
  | _ :: _ :: _ => false

/-- Embeds the pandas department filter of lines 34 and 85,
`str.contains(f"^dept$", na=False, regex=True)`, i.e. Python
`re.search` of the `^`-and-`$`-anchored pattern built from the configured
department name, for department names without regex metacharacters (the
configured identifiers such as `CS`).  `^` anchors the literal at position 0
and the final `$` follows Python semantics (`matchDollar`). -/
def pyAnchoredSearch (lit field : String) : Bool :=
  match matchLit lit.toList field.toList with
  | some rest => matchDollar rest
  | none => false

/-- One course row as the aggregator reads it: the `Course Code` cell (`none`
models a missing identifier) and the `Department` cell as the string pandas
produces via `astype(str)`. -/
structure CourseRow where
  courseCode : Option String
  department : String
deriving Repr, DecidableEq

/-- A per-semester course table: whether it has a `Department` column, and its
rows. -/
structure SemTable where
  hasDeptCol : Bool
  rows : List CourseRow
deriving Repr, DecidableEq

/-- A row of the aggregated table, after the `Semester` and `Dept_Session`
columns are added (lines 49-51 / 100-102). -/
structure TaggedRow where
  courseCode : Option String
  department : String
  semester : String
  deptSession : String
deriving Repr, DecidableEq

/-- The department filter of lines 33-37 / 84-88: when the table has a
`Department` column keep the rows whose department field matches the anchored
pattern, otherwise keep every row. -/
def deptFilterRows (department : String) (t : SemTable) : List CourseRow :=
  if t.hasDeptCol then t.rows.filter (fun r => pyAnchoredSearch department r.department)
  else t.rows

/-- Keep-first row deduplication by `Course Code`
(`drop_duplicates(subset=['Course Code'], keep='first')`, lines 61-62 and
112-113); pandas treats two missing keys as duplicates of each other, matching
`Option` equality.  `seen` accumulates the keys already kept. -/
def dropDupByCodeAux (seen : List (Option String)) : List TaggedRow → List TaggedRow
  | [] => []
  | r :: rest =>
    if seen.contains r.courseCode then dropDupByCodeAux seen rest
    else r :: dropDupByCodeAux (r.courseCode :: seen) rest

/-- Application of `drop_duplicates(subset=['Course Code'], keep='first')` to
the combined table. -/
def dropDupByCode (l : List TaggedRow) : List TaggedRow :=
  dropDupByCodeAux [] l

/-- The concatenated (pre-deduplication) table built by the nested
semester/department loops of `get_all_pre_mid_courses` (lines 17-58) and
`get_all_post_mid_courses` (lines 68-109), in iteration order: semesters
outer, departments inner.  The `ExcelLoader` collaborators are parameters:
`getSem` is `get_semester_courses`, `parse` is `parse_ltpsc`, `divide` is
`divide_courses_by_session` (returning the Pre-Mid and Post-Mid tables);
`pickPre` selects which of the two session tables the function accumulates,
and `label` is the `PRE_MID`/`POST_MID` config constant used in the
`Dept_Session` tag. -/
def collectSessionRaw (pickPre : Bool) (semesters departments : List String)
    (getSem : String → SemTable) (parse : SemTable → SemTable)
    (divide : List CourseRow → String → List CourseRow → List CourseRow × List CourseRow)
    (label : String) : List TaggedRow :=
  semesters.foldl (fun acc semester =>
    let semAll := getSem semester
    if semAll.rows.isEmpty then acc
    else
      let parsed := parse semAll
      if parsed.rows.isEmpty then acc
      else
        departments.foldl (fun acc2 department =>
          let deptCourses := deptFilterRows department parsed
          if deptCourses.isEmpty then acc2
          else
            let divided := divide deptCourses department parsed.rows
            let chosen := if pickPre then divided.1 else divided.2
            if chosen.isEmpty then acc2
            else acc2 ++ chosen.map (fun r =>
              ⟨r.courseCode, r.department, semester, department ++ "_" ++ label⟩)) acc) []

/-- Both `get_all_pre_mid_courses` (`pickPre = true`) and
`get_all_post_mid_courses` (`pickPre = false`), lines 15-64 and 66-115: the
concatenated table of the nested loops, empty when nothing survived, otherwise
deduplicated by `Course Code` keeping the first occurrence. -/
def collectSession (pickPre : Bool) (semesters departments : List String)
    (getSem : String → SemTable) (parse : SemTable → SemTable)
    (divide : List CourseRow → String → List CourseRow → List CourseRow × List CourseRow)
    (label : String) : List TaggedRow :=
  let all := collectSessionRaw pickPre semesters departments getSem parse divide label
  if all.isEmpty then [] else dropDupByCode all

/-! ## Lemmas about the distribution loop -/

theorem alloc_eq_zero (base rem i : Nat) (h : alloc base rem i = 0) :
    base = 0 ∧ rem ≤ i := by
  unfold alloc at h
  rcases Nat.lt_or_ge i rem with hi | hi
  · rw [if_pos hi] at h; omega
  · rw [if_neg (Nat.not_lt.mpr hi)] at h; omega

theorem allocSum_of_base_zero (rem : Nat) :
    ∀ (n dayIdx : Nat), rem ≤ dayIdx → allocSum 0 rem dayIdx n = 0 := by
  intro n
  induction n with
  | zero => intro dayIdx _; rfl
  | succ n ih =>
    intro dayIdx h
    show alloc 0 rem dayIdx + allocSum 0 rem (dayIdx + 1) n = 0
    rw [ih (dayIdx + 1) (by omega)]
    unfold alloc
    rw [if_neg (Nat.not_lt.mpr h)]

theorem courseThisDay_eq (cs : List String) (base rem dayIdx cursor n : Nat)
    (h : cursor + (alloc base rem dayIdx + allocSum base rem (dayIdx + 1) n) = cs.length) :
    courseThisDay cs base rem dayIdx cursor = alloc base rem dayIdx := by
  show (if cursor < cs.length ∧ alloc base rem dayIdx = 0 then 1
        else alloc base rem dayIdx) = alloc base rem dayIdx
  by_cases ha : alloc base rem dayIdx = 0
  · obtain ⟨hb, hge⟩ := alloc_eq_zero base rem dayIdx ha
    have hz : allocSum base rem (dayIdx + 1) n = 0 := by
      rw [hb]; exact allocSum_of_base_zero rem n (dayIdx + 1) (by omega)
    rw [if_neg]
    intro hcontra
    omega
  · rw [if_neg]
    intro hcontra
    exact ha hcontra.2

theorem takeSlot_length (cs : List String) (cursor count : Nat) :
    (takeSlot cs cursor count).length = min count (cs.length - cursor) := by
  simp [takeSlot]

theorem distribDays_cons (cs : List String) (base rem : Nat) (day : String)
    (rest : List String) (dayIdx cursor : Nat) :
    distribDays cs base rem (day :: rest) dayIdx cursor =
      (⟨day, takeSlot cs cursor (fnCountOf (courseThisDay cs base rem dayIdx cursor)),
        takeSlot cs
          (cursor + (takeSlot cs cursor (fnCountOf (courseThisDay cs base rem dayIdx cursor))).length)
          (courseThisDay cs base rem dayIdx cursor
            - fnCountOf (courseThisDay cs base rem dayIdx cursor))⟩ ::
        (distribDays cs base rem rest (dayIdx + 1)
          (cursor + (takeSlot cs cursor (fnCountOf (courseThisDay cs base rem dayIdx cursor))).length
            + (takeSlot cs
                (cursor + (takeSlot cs cursor (fnCountOf (courseThisDay cs base rem dayIdx cursor))).length)
                (courseThisDay cs base rem dayIdx cursor
                  - fnCountOf (courseThisDay cs base rem dayIdx cursor))).length)).1,
       (distribDays cs base rem rest (dayIdx + 1)
          (cursor + (takeSlot cs cursor (fnCountOf (courseThisDay cs base rem dayIdx cursor))).length
            + (takeSlot cs
                (cursor + (takeSlot cs cursor (fnCountOf (courseThisDay cs base rem dayIdx cursor))).length)
                (courseThisDay cs base rem dayIdx cursor
                  - fnCountOf (courseThisDay cs base rem dayIdx cursor))).length)).2) := rfl

/-- Correctness of the distribution loop under the exact-cover hypothesis
(the pending allocations sum to exactly the unassigned courses): the loop
visits each day label once, gives positional day `dayIdx + i` exactly
`alloc base rem (dayIdx + i)` courses split `ceil`-first between FN and AN,
consumes the course list in order, and ends with the cursor at the end. -/
theorem distribDays_spec (cs : List String) (base rem : Nat) :
    ∀ (days : List String) (dayIdx cursor : Nat),
      cursor + allocSum base rem dayIdx days.length = cs.length →
      (distribDays cs base rem days dayIdx cursor).1.map DaySched.day = days
      ∧ (distribDays cs base rem days dayIdx cursor).1.map (fun d => d.fn.length)
          = (allocList base rem dayIdx days.length).map fnCountOf
      ∧ (distribDays cs base rem days dayIdx cursor).1.map (fun d => d.an.length)
          = (allocList base rem dayIdx days.length).map (fun a => a - fnCountOf a)
      ∧ dayCounts (distribDays cs base rem days dayIdx cursor).1
          = allocList base rem dayIdx days.length
      ∧ concatPositional (distribDays cs base rem days dayIdx cursor).1 = cs.drop cursor
      ∧ (distribDays cs base rem days dayIdx cursor).2 = cs.length := by
  intro days
  induction days with
  | nil =>
    intro dayIdx cursor h
    rw [List.length_nil] at h
    have hc : cursor = cs.length := by
      have hz : allocSum base rem dayIdx 0 = 0 := rfl
      omega
    subst hc
    refine ⟨rfl, rfl, rfl, rfl, ?_, rfl⟩
    show ([] : List String) = cs.drop cs.length
    rw [List.drop_length]
  | cons day rest ih =>
    intro dayIdx cursor h
    have hlen : (day :: rest).length = rest.length + 1 := rfl
    rw [hlen] at h
    have hsum : cursor + (alloc base rem dayIdx + allocSum base rem (dayIdx + 1) rest.length)
        = cs.length := h
    have hctd := courseThisDay_eq cs base rem dayIdx cursor rest.length hsum
    have hfnle : fnCountOf (alloc base rem dayIdx) ≤ alloc base rem dayIdx := by
      unfold fnCountOf; omega
    have hrema : cursor + alloc base rem dayIdx ≤ cs.length := by omega
    have hfnlen : (takeSlot cs cursor (fnCountOf (alloc base rem dayIdx))).length
        = fnCountOf (alloc base rem dayIdx) := by
      rw [takeSlot_length]; omega
    have hanlen : (takeSlot cs (cursor + fnCountOf (alloc base rem dayIdx))
        (alloc base rem dayIdx - fnCountOf (alloc base rem dayIdx))).length
        = alloc base rem dayIdx - fnCountOf (alloc base rem dayIdx) := by
      rw [takeSlot_length]; omega
    have hsum2 : (cursor + alloc base rem dayIdx)
        + allocSum base rem (dayIdx + 1) rest.length = cs.length := by omega
    obtain ⟨ihday, ihfn, ihan, ihcnt, ihflat, ihfin⟩ :=
      ih (dayIdx + 1) (cursor + alloc base rem dayIdx) hsum2
    rw [distribDays_cons, hctd, hfnlen, hanlen]
    have hcursor : cursor + fnCountOf (alloc base rem dayIdx)
        + (alloc base rem dayIdx - fnCountOf (alloc base rem dayIdx))
        = cursor + alloc base rem dayIdx := by omega
    rw [hcursor]
    have hallocList : allocList base rem dayIdx (rest.length + 1)
        = alloc base rem dayIdx :: allocList base rem (dayIdx + 1) rest.length := rfl
    rw [hlen, hallocList]
    refine ⟨?_, ?_, ?_, ?_, ?_, ihfin⟩
    · simpa using ihday
    · simpa [hfnlen] using ihfn
    · simpa [hanlen] using ihan
    · unfold dayCounts at ihcnt ⊢
      have hhead : fnCountOf (alloc base rem dayIdx)
          + (alloc base rem dayIdx - fnCountOf (alloc base rem dayIdx))
          = alloc base rem dayIdx := by omega
      simpa [hfnlen, hanlen, hhead] using ihcnt
    · unfold concatPositional at ihflat ⊢
      rw [List.map_cons, List.flatten_cons, ihflat]
      have hsplit : takeSlot cs cursor (fnCountOf (alloc base rem dayIdx))
          ++ takeSlot cs (cursor + fnCountOf (alloc base rem dayIdx))
              (alloc base rem dayIdx - fnCountOf (alloc base rem dayIdx))
          = takeSlot cs cursor (alloc base rem dayIdx) := by
        unfold takeSlot
        have hdd2 : cs.drop (cursor + fnCountOf (alloc base rem dayIdx))
            = (cs.drop cursor).drop (fnCountOf (alloc base rem dayIdx)) := by
          rw [List.drop_drop]
        rw [hdd2, ← List.take_add, Nat.add_sub_cancel' hfnle]
      dsimp only
      rw [hsplit]
      unfold takeSlot
      have hdd : cs.drop (cursor + alloc base rem dayIdx)
          = (cs.drop cursor).drop (alloc base rem dayIdx) := by
        rw [List.drop_drop]
      rw [hdd, List.take_append_drop]

theorem allocSum_seven (T : Nat) : allocSum (T / 7) (T % 7) 0 7 = T := by
  have h7 : allocSum (T / 7) (T % 7) 0 7
      = alloc (T / 7) (T % 7) 0 + (alloc (T / 7) (T % 7) 1 + (alloc (T / 7) (T % 7) 2
        + (alloc (T / 7) (T % 7) 3 + (alloc (T / 7) (T % 7) 4 + (alloc (T / 7) (T % 7) 5
        + (alloc (T / 7) (T % 7) 6 + 0)))))) := rfl
  rw [h7]
  unfold alloc
  split_ifs <;> omega

theorem allocList_seven (base rem : Nat) :
    allocList base rem 0 7
      = [alloc base rem 0, alloc base rem 1, alloc base rem 2, alloc base rem 3,
         alloc base rem 4, alloc base rem 5, alloc base rem 6] := rfl

/-- The loop specification instantiated at the `schedule_exams` call site for
`num_days = 7`: days in order, per-day counts given by the base/remainder
allocation, FN gets the `ceil` half, and the concatenation of the positional
buckets reproduces the shuffled list. -/
theorem distribute7_spec (cs : List String) :
    (distribute7 cs).map DaySched.day = examDaysFull
    ∧ (distribute7 cs).map (fun d => d.fn.length)
        = (allocList (cs.length / 7) (cs.length % 7) 0 7).map fnCountOf
    ∧ (distribute7 cs).map (fun d => d.an.length)
        = (allocList (cs.length / 7) (cs.length % 7) 0 7).map (fun a => a - fnCountOf a)
    ∧ dayCounts (distribute7 cs) = allocList (cs.length / 7) (cs.length % 7) 0 7
    ∧ concatPositional (distribute7 cs) = cs := by
  have hlen : examDaysFull.length = 7 := rfl
  have hsum : (0 : Nat) + allocSum (cs.length / 7) (cs.length % 7) 0 examDaysFull.length
      = cs.length := by
    rw [hlen, allocSum_seven]
    omega
  obtain ⟨h1, h2, h3, h4, h5, _⟩ :=
    distribDays_spec cs (cs.length / 7) (cs.length % 7) examDaysFull 0 0 hsum
  rw [hlen] at h2 h3 h4
  rw [List.drop_zero] at h5
  exact ⟨h1, h2, h3, h4, h5⟩

theorem distribDays_mem_split (cs : List String) (base rem : Nat) :
    ∀ (days : List String) (dayIdx cursor : Nat),
      cursor + allocSum base rem dayIdx days.length = cs.length →
      ∀ d ∈ (distribDays cs base rem days dayIdx cursor).1, ∃ a : Nat,
        d.fn.length = fnCountOf a ∧ d.an.length = a - fnCountOf a := by
  intro days
  induction days with
  | nil =>
    intro dayIdx cursor h d hd
    simp [distribDays] at hd
  | cons day rest ih =>
    intro dayIdx cursor h d hd
    rw [List.length_cons] at h
    have hsum : cursor + (alloc base rem dayIdx + allocSum base rem (dayIdx + 1) rest.length)
        = cs.length := by
      have hu : allocSum base rem dayIdx (rest.length + 1)
          = alloc base rem dayIdx + allocSum base rem (dayIdx + 1) rest.length := rfl
      omega
    have hctd := courseThisDay_eq cs base rem dayIdx cursor rest.length hsum
    have hfnle : fnCountOf (alloc base rem dayIdx) ≤ alloc base rem dayIdx := by
      unfold fnCountOf; omega
    have hrema : cursor + alloc base rem dayIdx ≤ cs.length := by omega
    have hfnlen : (takeSlot cs cursor (fnCountOf (alloc base rem dayIdx))).length
        = fnCountOf (alloc base rem dayIdx) := by
      rw [takeSlot_length]; omega
    have hanlen : (takeSlot cs (cursor + fnCountOf (alloc base rem dayIdx))
        (alloc base rem dayIdx - fnCountOf (alloc base rem dayIdx))).length
        = alloc base rem dayIdx - fnCountOf (alloc base rem dayIdx) := by
      rw [takeSlot_length]; omega
    rw [distribDays_cons, hctd, hfnlen] at hd
    rcases List.mem_cons.mp hd with hhead | htail
    · subst hhead
      exact ⟨alloc base rem dayIdx, hfnlen, hanlen⟩
    · have hsum2 : (cursor + alloc base rem dayIdx)
          + allocSum base rem (dayIdx + 1) rest.length = cs.length := by omega
      have hcursor : cursor + fnCountOf (alloc base rem dayIdx)
          + (alloc base rem dayIdx - fnCountOf (alloc base rem dayIdx))
          = cursor + alloc base rem dayIdx := by omega
      rw [hanlen, hcursor] at htail
      exact ih (dayIdx + 1) (cursor + alloc base rem dayIdx) hsum2 d htail

/-- Every positional day of `distribute7 cs` carries an allocation `a` with
FN length `⌈a/2⌉` and AN length `a - ⌈a/2⌉`. -/
theorem distribute7_mem_split (cs : List String) :
    ∀ d ∈ distribute7 cs, ∃ a : Nat,
      d.fn.length = fnCountOf a ∧ d.an.length = a - fnCountOf a := by
  have hlen : examDaysFull.length = 7 := rfl
  have hsum : (0 : Nat) + allocSum (cs.length / 7) (cs.length % 7) 0 examDaysFull.length
      = cs.length := by
    rw [hlen, allocSum_seven]
    omega
  exact distribDays_mem_split cs (cs.length / 7) (cs.length % 7) examDaysFull 0 0 hsum

/-- Ten distinct course identifiers, standing for the spec's 10-course
example (the distribution shape depends only on the count). -/
def exampleTen : List String :=
  ["A", "B", "C", "D", "E", "F", "G", "H", "I", "J"]

/-- C3: for every total course count `T` and `num_days = 7`, positional day
`i` of the `schedule_exams` distribution loop receives `⌊T/7⌋ + 1` courses
when `i < T mod 7` and `⌊T/7⌋` otherwise, so any two days differ by at most
one course; for `T = 10` the first three days receive 2 courses each and the
last four receive 1 each. -/
theorem C3_balanced_day_counts (cs : List String) (i j : Nat) (hi : i < 7) (hj : j < 7) :
    dayCount (distribute7 cs) i
      = cs.length / 7 + (if i < cs.length % 7 then 1 else 0)
    ∧ dayCount (distribute7 cs) i ≤ dayCount (distribute7 cs) j + 1
    ∧ dayCounts (distribute7 exampleTen) = [2, 2, 2, 1, 1, 1, 1] := by
  obtain ⟨_, _, _, h4, _⟩ := distribute7_spec cs
  have hformula : ∀ k, k < 7 → dayCount (distribute7 cs) k
      = cs.length / 7 + (if k < cs.length % 7 then 1 else 0) := by
    intro k hk
    unfold dayCount
    rw [h4, allocList_seven]
    interval_cases k <;> rfl
  refine ⟨hformula i hi, ?_, by decide⟩
  rw [hformula i hi, hformula j hj]
  split_ifs <;> omega

theorem C3_balanced_day_counts_witness :
    0 < 7 ∧ 3 < 7
    ∧ (dayCount (distribute7 exampleTen) 0
        = exampleTen.length / 7 + (if 0 < exampleTen.length % 7 then 1 else 0)
      ∧ dayCount (distribute7 exampleTen) 0 ≤ dayCount (distribute7 exampleTen) 3 + 1
      ∧ dayCounts (distribute7 exampleTen) = [2, 2, 2, 1, 1, 1, 1]) :=
  ⟨by decide, by decide, C3_balanced_day_counts exampleTen 0 3 (by decide) (by decide)⟩

/-- C4: every positional day of the `schedule_exams` distribution loop puts
`ceil(day_count / 2)` courses in the forenoon bucket and the rest in the
afternoon bucket, so FN − AN is 0 or 1 — never negative, never more than 1;
for the 10-course example a 2-course day splits 1/1 and a 1-course day splits
1/0. -/
theorem C4_fn_an_balance (cs : List String) (d : DaySched) (hd : d ∈ distribute7 cs) :
    d.fn.length = (d.fn.length + d.an.length + 1) / 2
    ∧ d.an.length ≤ d.fn.length
    ∧ d.fn.length ≤ d.an.length + 1
    ∧ (distribute7 exampleTen).map (fun x => (x.fn.length, x.an.length))
        = [(1, 1), (1, 1), (1, 1), (1, 0), (1, 0), (1, 0), (1, 0)] := by
  obtain ⟨a, hfn, han⟩ := distribute7_mem_split cs d hd
  unfold fnCountOf at hfn han
  exact ⟨by omega, by omega, by omega, by decide⟩

theorem C4_fn_an_balance_witness :
    (⟨"Saturday", ["A"], ["B"]⟩ : DaySched) ∈ distribute7 exampleTen
    ∧ ((⟨"Saturday", ["A"], ["B"]⟩ : DaySched).fn.length
        = ((⟨"Saturday", ["A"], ["B"]⟩ : DaySched).fn.length
            + (⟨"Saturday", ["A"], ["B"]⟩ : DaySched).an.length + 1) / 2
      ∧ (⟨"Saturday", ["A"], ["B"]⟩ : DaySched).an.length
          ≤ (⟨"Saturday", ["A"], ["B"]⟩ : DaySched).fn.length
      ∧ (⟨"Saturday", ["A"], ["B"]⟩ : DaySched).fn.length
          ≤ (⟨"Saturday", ["A"], ["B"]⟩ : DaySched).an.length + 1
      ∧ (distribute7 exampleTen).map (fun x => (x.fn.length, x.an.length))
          = [(1, 1), (1, 1), (1, 1), (1, 0), (1, 0), (1, 0), (1, 0)]) :=
  ⟨by decide, C4_fn_an_balance exampleTen ⟨"Saturday", ["A"], ["B"]⟩ (by decide)⟩

/-- Seven distinct course identifiers (a shuffled list of 7 courses). -/
def cs7 : List String := ["A", "B", "C", "D", "E", "F", "G"]

/-- A `schedule_exams` input whose `Course Code` column holds the seven
identifiers of `cs7`. -/
def df7 : CoursesDF := ⟨7, some (cs7.map some)⟩

/-- A `schedule_exams` input with a single course identifier. -/
def dfOne : CoursesDF := ⟨1, some [some "A"]⟩

theorem scheduleExams_ok (df : CoursesDF) (shuffle : List String → List String)
    (numDays : Int) (f a : List (String × List String))
    (h : scheduleExamsCore df shuffle numDays = Except.ok (f, a)) :
    scheduleExams df shuffle numDays = Except.ok (renderDf f, renderDf a) := by
  unfold scheduleExams
  rw [h]

/-- C1 refuted on the code: for the 7-course input `cs7` with `num_days = 7`
(identity standing for the shuffle), the produced assignment has only six
buckets because the two Monday positions share one dict key; the course of
positional day 7 (`"G"`) lands in the merged Monday bucket, so concatenating
the buckets in day order, FN before AN, yields `A,B,G,C,D,E,F`, not the
shuffled list — although the positional loop itself does consume the shuffled
list exactly in order. -/
theorem C1_concatenation_broken :
    scheduleExamsCore df7 id 7
      = Except.ok
          ([("Saturday", ["A"]), ("Monday", ["B", "G"]), ("Tuesday", ["C"]),
            ("Wednesday", ["D"]), ("Thursday", ["E"]), ("Friday", ["F"])],
           [("Saturday", []), ("Monday", []), ("Tuesday", []),
            ("Wednesday", []), ("Thursday", []), ("Friday", [])])
    ∧ concatAssignment
        [("Saturday", ["A"]), ("Monday", ["B", "G"]), ("Tuesday", ["C"]),
         ("Wednesday", ["D"]), ("Thursday", ["E"]), ("Friday", ["F"])]
        [("Saturday", []), ("Monday", []), ("Tuesday", []),
         ("Wednesday", []), ("Thursday", []), ("Friday", [])]
        = ["A", "B", "G", "C", "D", "E", "F"]
    ∧ ["A", "B", "G", "C", "D", "E", "F"] ≠ cs7
    ∧ concatPositional (distribute7 cs7) = cs7 :=
  ⟨rfl, rfl, by decide, rfl⟩

/-- C2 refuted on the code: the day-label sequence does list Saturday,
Monday, Tuesday, Wednesday, Thursday, Friday, Monday and the distribution
loop walks 7 positional days, but the schedule dictionaries key buckets by
label, so they have only 6 entries and the two days labeled "Monday"
(positions 2 and 7) are merged into one bucket — for `cs7` the single Monday
FN bucket holds both `"B"` (from positional day 2) and `"G"` (from positional
day 7). -/
theorem C2_monday_buckets_merged :
    examDaysFull
      = ["Saturday", "Monday", "Tuesday", "Wednesday", "Thursday", "Friday", "Monday"]
    ∧ examDaysFull.length = 7
    ∧ (distribute7 cs7).map DaySched.day
        = ["Saturday", "Monday", "Tuesday", "Wednesday", "Thursday", "Friday", "Monday"]
    ∧ (dictInit examDaysFull).map Prod.fst
        = ["Saturday", "Monday", "Tuesday", "Wednesday", "Thursday", "Friday"]
    ∧ (dictInit examDaysFull).length = 6
    ∧ (buildSlotDict examDaysFull DaySched.fn (distribute7 cs7)).find?
        (fun p => p.1 == "Monday") = some ("Monday", ["B", "G"]) := by decide

/-- C7: a zero-course input makes `schedule_exams` return the two empty
DataFrames without raising, and every (day, slot) cell read out of them is
the empty sequence. -/
theorem C7_empty_input (df : CoursesDF) (shuffle : List String → List String)
    (numDays : Int) (h : df.numRows = 0) :
    scheduleExams df shuffle numDays = Except.ok ([], [])
    ∧ ∀ day : String, getCell [] day = "" := by
  have hc : scheduleExamsCore df shuffle numDays = Except.ok ([], []) := by
    unfold scheduleExamsCore
    rw [if_pos h]
  refine ⟨?_, fun day => rfl⟩
  have := scheduleExams_ok df shuffle numDays [] [] hc
  simpa [renderDf] using this

theorem C7_empty_input_witness :
    (CoursesDF.mk 0 none).numRows = 0
    ∧ scheduleExams ⟨0, none⟩ id 7 = Except.ok ([], [])
    ∧ getCell [] "Monday" = "" :=
  ⟨rfl, (C7_empty_input ⟨0, none⟩ id 7 rfl).1,
   (C7_empty_input ⟨0, none⟩ id 7 rfl).2 "Monday"⟩

/-- C8 refuted on the code: a negative `num_days` does not raise an
invalid-argument error. For `num_days` in `[-6, -1]` the Python slice
`exam_days[:num_days]` silently truncates the day list and a schedule is
returned (here `-1` schedules the single course on Saturday of a 6-day
week); for `num_days ≤ -7` the slice is empty and line 146 divides by zero,
raising `ZeroDivisionError` instead of an invalid-argument error. -/
theorem C8_negative_num_days :
    scheduleExams dfOne id (-1)
      = Except.ok
          ([("Saturday", "A"), ("Monday", ""), ("Tuesday", ""),
            ("Wednesday", ""), ("Thursday", ""), ("Friday", "")],
           [("Saturday", ""), ("Monday", ""), ("Tuesday", ""),
            ("Wednesday", ""), ("Thursday", ""), ("Friday", "")])
    ∧ scheduleExams dfOne id (-7) = Except.error "ZeroDivisionError"
    ∧ scheduleExams dfOne id (-8) = Except.error "ZeroDivisionError" :=
  ⟨rfl, rfl, rfl⟩

/-- C10: a non-empty table without a `Course Code` column, or one whose
identifiers are all missing, makes `schedule_exams` return the same two
empty DataFrames as an empty input, raising nothing. -/
theorem C10_missing_column_or_all_nan (shuffle : List String → List String)
    (hperm : ∀ l, List.Perm (shuffle l) l) (n : Nat) (hn : n ≠ 0)
    (col : List (Option String)) (hcol : ∀ x ∈ col, x = none) (numDays : Int) :
    scheduleExams ⟨n, none⟩ shuffle numDays = Except.ok ([], [])
    ∧ scheduleExams ⟨n, some col⟩ shuffle numDays = Except.ok ([], [])
    ∧ scheduleExams ⟨0, none⟩ shuffle numDays = Except.ok ([], []) := by
  have hfm : col.filterMap id = [] := by
    rw [List.filterMap_eq_nil_iff]
    simpa using hcol
  have hdnu : dropNaUnique col = [] := by
    unfold dropNaUnique
    rw [hfm]
    rfl
  have hlen0 : (shuffle []).length = 0 := by
    have := (hperm []).length_eq
    simpa using this
  have h1 : scheduleExamsCore ⟨n, none⟩ shuffle numDays = Except.ok ([], []) := by
    unfold scheduleExamsCore
    dsimp only
    rw [if_neg hn]
  have h2 : scheduleExamsCore ⟨n, some col⟩ shuffle numDays = Except.ok ([], []) := by
    unfold scheduleExamsCore
    dsimp only
    rw [if_neg hn, hdnu, if_pos hlen0]
  have h3 : scheduleExamsCore ⟨0, none⟩ shuffle numDays = Except.ok ([], []) := by
    unfold scheduleExamsCore
    dsimp only
    rw [if_pos rfl]
  refine ⟨?_, ?_, ?_⟩
  · simpa [renderDf] using scheduleExams_ok _ shuffle numDays [] [] h1
  · simpa [renderDf] using scheduleExams_ok _ shuffle numDays [] [] h2
  · simpa [renderDf] using scheduleExams_ok _ shuffle numDays [] [] h3

theorem C10_missing_column_or_all_nan_witness :
    (∀ l : List String, List.Perm (id l) l)
    ∧ (1 : Nat) ≠ 0
    ∧ (∀ x ∈ [(none : Option String)], x = none)
    ∧ (scheduleExams ⟨1, none⟩ id 7 = Except.ok ([], [])
      ∧ scheduleExams ⟨1, some [none]⟩ id 7 = Except.ok ([], [])
      ∧ scheduleExams ⟨0, none⟩ id 7 = Except.ok ([], [])) :=
  ⟨fun l => List.Perm.refl l, by decide, by decide,
   C10_missing_column_or_all_nan id (fun l => List.Perm.refl l) 1 (by decide)
     [none] (by decide) 7⟩

/-! ## Lemmas about the department filter -/

theorem contains_iff_mem {α : Type} [BEq α] [LawfulBEq α] (xs : List α) (c : α) :
    xs.contains c = true ↔ c ∈ xs :=
  List.elem_iff

theorem matchLit_eq_some_iff (lit : List Char) :
    ∀ (s rest : List Char), matchLit lit s = some rest ↔ s = lit ++ rest := by
  induction lit with
  | nil =>
    intro s rest
    simp [matchLit]
  | cons c cs ih =>
    intro s rest
    cases s with
    | nil =>
      simp [matchLit]
    | cons x xs =>
      show (if x = c then matchLit cs xs else none) = some rest
        ↔ x :: xs = c :: cs ++ rest
      by_cases hx : x = c
      · rw [if_pos hx, ih xs rest]
        subst hx
        simp
      · rw [if_neg hx]
        simp [hx]

theorem matchDollar_iff (rest : List Char) :
    matchDollar rest = true ↔ rest = [] ∨ rest = ['\n'] := by
  match rest with
  | [] => simp [matchDollar]
  | [c] => simp [matchDollar]
  | a :: b :: t => simp [matchDollar]

/-- Searching the anchored pattern of a metacharacter-free literal succeeds
exactly when the field equals the literal or the literal followed by one
trailing newline (Python's `$`). -/
theorem pyAnchoredSearch_iff (lit field : String) :
    pyAnchoredSearch lit field = true ↔ field = lit ∨ field = lit ++ "\n" := by
  have happ : (lit ++ "\n").toList = lit.toList ++ ['\n'] := by
    show (lit ++ "\n").data = lit.data ++ ['\n']
    rw [String.data_append]
  have hext : ∀ t : String, field = t ↔ field.toList = t.toList := by
    intro t
    constructor
    · intro h; rw [h]
    · intro h; exact String.ext h
  constructor
  · intro h
    unfold pyAnchoredSearch at h
    cases hm : matchLit lit.toList field.toList with
    | none => rw [hm] at h; cases h
    | some rest =>
      rw [hm] at h
      have hs := (matchLit_eq_some_iff lit.toList field.toList rest).mp hm
      rcases (matchDollar_iff rest).mp h with h0 | h1
      · left
        rw [hext lit, hs, h0, List.append_nil]
      · right
        rw [hext (lit ++ "\n"), hs, h1, happ]
  · intro h
    unfold pyAnchoredSearch
    rcases h with h | h
    · have hm : matchLit lit.toList field.toList = some [] := by
        rw [matchLit_eq_some_iff]
        rw [(hext lit).mp h]
        simp
      rw [hm]
      rfl
    · have hm : matchLit lit.toList field.toList = some ['\n'] := by
        rw [matchLit_eq_some_iff]
        rw [(hext (lit ++ "\n")).mp h, happ]
      rw [hm]
      rfl

/-- C6 counterexample: the aggregator's department filter is not an
exact-equality test — the field `"CS\n"` differs from the configured
department `"CS"` yet matches the anchored pattern (Python's `$` also matches
before a trailing newline), and the row survives all the way through
`get_all_pre_mid_courses`. -/
theorem C6_trailing_newline_counterexample :
    pyAnchoredSearch "CS" "CS\n" = true
    ∧ "CS\n" ≠ "CS"
    ∧ collectSession true ["S1"] ["CS"]
        (fun _ => ⟨true, [⟨some "X1", "CS\n"⟩]⟩) id (fun dc _ _ => (dc, [])) "Pre-Mid"
        = [⟨some "X1", "CS\n", "S1", "CS_Pre-Mid"⟩] := by decide

/-- C6 amended: the filter of `get_all_pre_mid_courses` /
`get_all_post_mid_courses` keeps a row for department `D` exactly when the
row's department field equals `D` or equals `D` followed by a single trailing
newline (Python `re` `$` semantics); in particular a proper substring never
matches — `"CS"` does not match a course tagged `"CSE"`. -/
theorem C6_dept_filter_anchored (department field : String)
    (rows : List CourseRow) (r : CourseRow) :
    (pyAnchoredSearch department field = true
      ↔ field = department ∨ field = department ++ "\n")
    ∧ (r ∈ deptFilterRows department ⟨true, rows⟩
      ↔ r ∈ rows
        ∧ (r.department = department ∨ r.department = department ++ "\n"))
    ∧ pyAnchoredSearch "CS" "CSE" = false := by
  refine ⟨pyAnchoredSearch_iff department field, ?_, by decide⟩
  show r ∈ List.filter (fun q => pyAnchoredSearch department q.department) rows
    ↔ r ∈ rows ∧ (r.department = department ∨ r.department = department ++ "\n")
  rw [List.mem_filter, pyAnchoredSearch_iff]

theorem C6_dept_filter_anchored_witness :
    (pyAnchoredSearch "CS" "CS" = true
      ↔ ("CS" : String) = "CS" ∨ ("CS" : String) = "CS" ++ "\n")
    ∧ pyAnchoredSearch "CS" "CSE" = false :=
  ⟨(C6_dept_filter_anchored "CS" "CS" [] ⟨some "X", "CS"⟩).1,
   (C6_dept_filter_anchored "CS" "CS" [] ⟨some "X", "CS"⟩).2.2⟩

/-! ## Lemmas about the keep-first deduplication -/

theorem dropDupByCodeAux_sublist (l : List TaggedRow) :
    ∀ seen, (dropDupByCodeAux seen l).Sublist l := by
  induction l with
  | nil => intro seen; exact List.Sublist.refl []
  | cons r rest ih =>
    intro seen
    unfold dropDupByCodeAux
    by_cases hc : seen.contains r.courseCode = true
    · rw [if_pos hc]
      exact List.Sublist.cons r (ih seen)
    · rw [if_neg hc]
      exact List.Sublist.cons₂ r (ih (r.courseCode :: seen))

theorem dropDupByCodeAux_fresh_nodup (l : List TaggedRow) :
    ∀ seen : List (Option String),
      (∀ r ∈ dropDupByCodeAux seen l, r.courseCode ∉ seen)
      ∧ ((dropDupByCodeAux seen l).map TaggedRow.courseCode).Nodup := by
  induction l with
  | nil =>
    intro seen
    exact ⟨fun r hr => absurd hr (List.not_mem_nil r), List.nodup_nil⟩
  | cons r rest ih =>
    intro seen
    unfold dropDupByCodeAux
    by_cases hc : seen.contains r.courseCode = true
    · rw [if_pos hc]
      exact ih seen
    · rw [if_neg hc]
      obtain ⟨hfresh, hnodup⟩ := ih (r.courseCode :: seen)
      constructor
      · intro q hq
        rcases List.mem_cons.mp hq with rfl | hq'
        · intro hmem
          exact hc ((contains_iff_mem seen q.courseCode).mpr hmem)
        · intro hmem
          exact hfresh q hq' (List.mem_cons_of_mem _ hmem)
      · rw [List.map_cons, List.nodup_cons]
        refine ⟨?_, hnodup⟩
        intro hmem
        obtain ⟨q, hq, hqc⟩ := List.mem_map.mp hmem
        exact hfresh q hq (by rw [hqc]; exact List.mem_cons_self _ _)

theorem dropDupByCodeAux_find (l : List TaggedRow) :
    ∀ (seen : List (Option String)) (k : Option String), k ∉ seen →
      (dropDupByCodeAux seen l).find? (fun r => r.courseCode == k)
        = l.find? (fun r => r.courseCode == k) := by
  induction l with
  | nil => intro seen k _; rfl
  | cons r rest ih =>
    intro seen k hk
    unfold dropDupByCodeAux
    by_cases hc : seen.contains r.courseCode = true
    · rw [if_pos hc]
      have hbeq : ((fun q => q.courseCode == k) r) = false := by
        show (r.courseCode == k) = false
        cases hb : (r.courseCode == k) with
        | false => rfl
        | true =>
          exfalso
          apply hk
          have hkc : r.courseCode = k := by simpa using hb
          rw [← hkc]
          exact (contains_iff_mem seen r.courseCode).mp hc
      rw [List.find?_cons]
      simp only [hbeq]
      exact ih seen k hk
    · rw [if_neg hc]
      rw [List.find?_cons, List.find?_cons]
      cases hb : (r.courseCode == k) with
      | true =>
        simp only [hb]
      | false =>
        simp only [hb]
        apply ih
        intro hmem
        rcases List.mem_cons.mp hmem with heq | hseen
        · rw [heq] at hb
          simp at hb
        · exact hk hseen

theorem dropDupByCodeAux_covers (l : List TaggedRow) :
    ∀ seen, ∀ r ∈ l, r.courseCode ∈ seen
      ∨ ∃ q ∈ dropDupByCodeAux seen l, q.courseCode = r.courseCode := by
  induction l with
  | nil =>
    intro seen r hr
    exact absurd hr (List.not_mem_nil r)
  | cons x rest ih =>
    intro seen r hr
    unfold dropDupByCodeAux
    by_cases hc : seen.contains x.courseCode = true
    · rw [if_pos hc]
      rcases List.mem_cons.mp hr with rfl | hr'
      · left
        exact (contains_iff_mem seen r.courseCode).mp hc
      · exact ih seen r hr'
    · rw [if_neg hc]
      rcases List.mem_cons.mp hr with rfl | hr'
      · right
        exact ⟨r, List.mem_cons_self _ _, rfl⟩
      · rcases ih (x.courseCode :: seen) r hr' with hmem | ⟨q, hq, hqc⟩
        · rcases List.mem_cons.mp hmem with heq | hseen
          · right
            exact ⟨x, List.mem_cons_self _ _, heq.symm⟩
          · left
            exact hseen
        · right
          exact ⟨q, List.mem_cons_of_mem _ hq, hqc⟩

theorem collectSession_eq_dropDup (pickPre : Bool) (semesters departments : List String)
    (getSem : String → SemTable) (parse : SemTable → SemTable)
    (divide : List CourseRow → String → List CourseRow → List CourseRow × List CourseRow)
    (label : String) :
    collectSession pickPre semesters departments getSem parse divide label
      = dropDupByCode
          (collectSessionRaw pickPre semesters departments getSem parse divide label) := by
  unfold collectSession
  by_cases h : (collectSessionRaw pickPre semesters departments getSem parse divide label).isEmpty
      = true
  · rw [if_pos h, List.isEmpty_iff.mp h]
    rfl
  · rw [if_neg h]

/-- C5: for every catalog, the aggregated session set contains each course
identifier at most once; the kept representative of every identifier is the
first row carrying it in semester-major, department-minor iteration order;
later duplicates (across departments and semesters) are silently discarded
but every identifier stays represented; the same identifier taught to both
`CS` and `EE` in one semester appears exactly once. -/
theorem C5_dedup_keep_first (pickPre : Bool) (semesters departments : List String)
    (getSem : String → SemTable) (parse : SemTable → SemTable)
    (divide : List CourseRow → String → List CourseRow → List CourseRow × List CourseRow)
    (label : String) :
    ((collectSession pickPre semesters departments getSem parse divide label).map
        TaggedRow.courseCode).Nodup
    ∧ (∀ k : Option String,
        (collectSession pickPre semesters departments getSem parse divide label).find?
            (fun r => r.courseCode == k)
          = (collectSessionRaw pickPre semesters departments getSem parse divide label).find?
            (fun r => r.courseCode == k))
    ∧ (collectSession pickPre semesters departments getSem parse divide label).Sublist
        (collectSessionRaw pickPre semesters departments getSem parse divide label)
    ∧ (∀ r ∈ collectSessionRaw pickPre semesters departments getSem parse divide label,
        ∃ q ∈ collectSession pickPre semesters departments getSem parse divide label,
          q.courseCode = r.courseCode)
    ∧ collectSession true ["S1"] ["CS", "EE"]
        (fun _ => ⟨true, [⟨some "MA101", "CS"⟩, ⟨some "MA101", "EE"⟩]⟩) id
        (fun dc _ _ => (dc, [])) "Pre-Mid"
        = [⟨some "MA101", "CS", "S1", "CS_Pre-Mid"⟩] := by
  rw [collectSession_eq_dropDup]
  refine ⟨(dropDupByCodeAux_fresh_nodup _ []).2, ?_, dropDupByCodeAux_sublist _ [], ?_, by decide⟩
  · intro k
    exact dropDupByCodeAux_find _ [] k (List.not_mem_nil k)
  · intro r hr
    rcases dropDupByCodeAux_covers _ [] r hr with hmem | hfound
    · exact absurd hmem (List.not_mem_nil _)
    · exact hfound

theorem C5_dedup_keep_first_witness :
    ((collectSession true ["S1"] ["CS", "EE"]
        (fun _ => ⟨true, [⟨some "MA101", "CS"⟩, ⟨some "MA101", "EE"⟩]⟩) id
        (fun dc _ _ => (dc, [])) "Pre-Mid").map TaggedRow.courseCode).Nodup
    ∧ collectSession true ["S1"] ["CS", "EE"]
        (fun _ => ⟨true, [⟨some "MA101", "CS"⟩, ⟨some "MA101", "EE"⟩]⟩) id
        (fun dc _ _ => (dc, [])) "Pre-Mid"
        = [⟨some "MA101", "CS", "S1", "CS_Pre-Mid"⟩] :=
  ⟨(C5_dedup_keep_first true ["S1"] ["CS", "EE"]
      (fun _ => ⟨true, [⟨some "MA101", "CS"⟩, ⟨some "MA101", "EE"⟩]⟩) id
      (fun dc _ _ => (dc, [])) "Pre-Mid").1,
   (C5_dedup_keep_first true ["S1"] ["CS", "EE"]
      (fun _ => ⟨true, [⟨some "MA101", "CS"⟩, ⟨some "MA101", "EE"⟩]⟩) id
      (fun dc _ _ => (dc, [])) "Pre-Mid").2.2.2.2⟩

/-! ## Lemmas tracking bucket contents back to the input column -/

theorem takeSlot_subset (cs : List String) (cursor count : Nat) :
    ∀ c ∈ takeSlot cs cursor count, c ∈ cs := by
  intro c hc
  exact List.drop_subset cursor cs (List.take_subset count (cs.drop cursor) hc)

theorem distribDays_slots_subset (cs : List String) (base rem : Nat) :
    ∀ (days : List String) (dayIdx cursor : Nat) (d : DaySched),
      d ∈ (distribDays cs base rem days dayIdx cursor).1 →
      (∀ c ∈ d.fn, c ∈ cs) ∧ (∀ c ∈ d.an, c ∈ cs) := by
  intro days
  induction days with
  | nil =>
    intro dayIdx cursor d hd
    simp [distribDays] at hd
  | cons day rest ih =>
    intro dayIdx cursor d hd
    rw [distribDays_cons] at hd
    rcases List.mem_cons.mp hd with rfl | htail
    · exact ⟨takeSlot_subset cs _ _, takeSlot_subset cs _ _⟩
    · exact ih (dayIdx + 1) _ d htail

theorem dictInitFold_values (ds : List String) :
    ∀ m : List (String × List String), (∀ p ∈ m, p.2 = ([] : List String)) →
      ∀ p ∈ ds.foldl
          (fun m d => if m.any (fun q => q.1 == d) then m else m ++ [(d, [])]) m,
        p.2 = [] := by
  induction ds with
  | nil =>
    intro m hm p hp
    exact hm p hp
  | cons d rest ih =>
    intro m hm p hp
    rw [List.foldl_cons] at hp
    refine ih _ ?_ p hp
    intro q hq
    by_cases hc : m.any (fun q => q.1 == d) = true
    · rw [if_pos hc] at hq
      exact hm q hq
    · rw [if_neg hc] at hq
      rcases List.mem_append.mp hq with hq1 | hq2
      · exact hm q hq1
      · rw [List.mem_singleton.mp hq2]

theorem dictInit_values (days : List String) :
    ∀ p ∈ dictInit days, p.2 = [] := by
  intro p hp
  exact dictInitFold_values days []
    (fun q hq => absurd hq (List.not_mem_nil q)) p hp

theorem dictAppend_values (key : String) (items : List String) :
    ∀ (m : List (String × List String)), ∀ p ∈ dictAppend m key items, ∀ c ∈ p.2,
      (∃ q ∈ m, c ∈ q.2) ∨ c ∈ items := by
  intro m
  induction m with
  | nil =>
    intro p hp
    exact absurd hp (List.not_mem_nil p)
  | cons kv rest ih =>
    obtain ⟨k, v⟩ := kv
    intro p hp c hc
    unfold dictAppend at hp
    by_cases hk : (k == key) = true
    · rw [if_pos hk] at hp
      rcases List.mem_cons.mp hp with rfl | hp2
      · rcases List.mem_append.mp hc with hv | hi
        · left
          exact ⟨(k, v), List.mem_cons_self _ _, hv⟩
        · right
          exact hi
      · left
        exact ⟨p, List.mem_cons_of_mem _ hp2, hc⟩
    · rw [if_neg hk] at hp
      rcases List.mem_cons.mp hp with rfl | hp2
      · left
        exact ⟨(k, v), List.mem_cons_self _ _, hc⟩
      · rcases ih p hp2 c hc with ⟨q, hq, hqc⟩ | hi
        · left
          exact ⟨q, List.mem_cons_of_mem _ hq, hqc⟩
        · right
          exact hi

theorem buildSlotDict_values (slot : DaySched → List String) :
    ∀ (scheds : List DaySched) (m : List (String × List String)),
      ∀ p ∈ scheds.foldl (fun m d => dictAppend m d.day (slot d)) m, ∀ c ∈ p.2,
        (∃ q ∈ m, c ∈ q.2) ∨ ∃ d ∈ scheds, c ∈ slot d := by
  intro scheds
  induction scheds with
  | nil =>
    intro m p hp c hc
    left
    exact ⟨p, hp, hc⟩
  | cons d rest ih =>
    intro m p hp c hc
    rw [List.foldl_cons] at hp
    rcases ih (dictAppend m d.day (slot d)) p hp c hc with ⟨q, hq, hqc⟩ | ⟨e, he, hec⟩
    · rcases dictAppend_values d.day (slot d) m q hq c hqc with hm | hitem
      · left
        exact hm
      · right
        exact ⟨d, List.mem_cons_self _ _, hitem⟩
    · right
      exact ⟨e, List.mem_cons_of_mem _ he, hec⟩

theorem uniqueFirstAux_subset (l : List String) :
    ∀ seen, ∀ x ∈ uniqueFirstAux seen l, x ∈ l := by
  induction l with
  | nil =>
    intro seen x hx
    exact absurd hx (List.not_mem_nil x)
  | cons a rest ih =>
    intro seen x hx
    unfold uniqueFirstAux at hx
    by_cases hc : seen.contains a = true
    · rw [if_pos hc] at hx
      exact List.mem_cons_of_mem _ (ih seen x hx)
    · rw [if_neg hc] at hx
      rcases List.mem_cons.mp hx with rfl | hx2
      · exact List.mem_cons_self _ _
      · exact List.mem_cons_of_mem _ (ih _ x hx2)

/-- C9 counterexample: a course row with a missing identifier survives
aggregation — `get_all_pre_mid_courses` returns it (the keep-first
deduplication keeps the first missing-key row), so the session set handed to
the scheduler can contain a record without an identifier. -/
theorem C9_malformed_survives_aggregation :
    collectSession true ["S1"] ["CS"]
        (fun _ => ⟨true, [⟨none, "CS"⟩]⟩) id (fun dc _ _ => (dc, [])) "Pre-Mid"
      = [⟨none, "CS", "S1", "CS_Pre-Mid"⟩]
    ∧ (⟨none, "CS", "S1", "CS_Pre-Mid"⟩ : TaggedRow).courseCode = none := by decide

/-- C9 amended: rows with missing identifiers are not dropped during
aggregation but during scheduling — `schedule_exams` removes them with
`dropna` (line 128) before distributing, so every course placed in any
(day, slot) bucket is a present identifier of the input column and a
malformed row never reaches the timetable. -/
theorem C9_missing_ids_never_scheduled (df : CoursesDF)
    (shuffle : List String → List String) (hperm : ∀ l, List.Perm (shuffle l) l)
    (numDays : Int) (fnD anD : List (String × List String))
    (hok : scheduleExamsCore df shuffle numDays = Except.ok (fnD, anD))
    (p : String × List String) (hp : p ∈ fnD ++ anD) (c : String) (hc : c ∈ p.2) :
    some c ∈ df.courseCodeCol.getD [] := by
  unfold scheduleExamsCore at hok
  by_cases h0 : df.numRows = 0
  · rw [if_pos h0] at hok
    simp only [Except.ok.injEq, Prod.mk.injEq] at hok
    obtain ⟨rfl, rfl⟩ := hok
    simp at hp
  · rw [if_neg h0] at hok
    cases hcol : df.courseCodeCol with
    | none =>
      rw [hcol] at hok
      simp only [Except.ok.injEq, Prod.mk.injEq] at hok
      obtain ⟨rfl, rfl⟩ := hok
      simp at hp
    | some col =>
      rw [hcol] at hok
      dsimp only at hok
      by_cases hl : (shuffle (dropNaUnique col)).length = 0
      · rw [if_pos hl] at hok
        simp only [Except.ok.injEq, Prod.mk.injEq] at hok
        obtain ⟨rfl, rfl⟩ := hok
        simp at hp
      · rw [if_neg hl] at hok
        by_cases hd : (pySliceTo examDaysFull numDays).length = 0
        · rw [if_pos hd] at hok
          exact absurd hok (by simp)
        · rw [if_neg hd] at hok
          simp only [Except.ok.injEq, Prod.mk.injEq] at hok
          obtain ⟨hfn, han⟩ := hok
          subst hfn
          subst han
          have hcourse : c ∈ shuffle (dropNaUnique col) := by
            rcases List.mem_append.mp hp with hpf | hpa
            · rcases buildSlotDict_values DaySched.fn _ _ p hpf c hc
                with ⟨q, hq, hqc⟩ | ⟨e, he, hec⟩
              · rw [dictInit_values _ q hq] at hqc
                exact absurd hqc (List.not_mem_nil c)
              · exact (distribDays_slots_subset (shuffle (dropNaUnique col)) _ _ _ _ _ e he).1 c hec
            · rcases buildSlotDict_values DaySched.an _ _ p hpa c hc
                with ⟨q, hq, hqc⟩ | ⟨e, he, hec⟩
              · rw [dictInit_values _ q hq] at hqc
                exact absurd hqc (List.not_mem_nil c)
              · exact (distribDays_slots_subset (shuffle (dropNaUnique col)) _ _ _ _ _ e he).2 c hec
          have hdnu : c ∈ dropNaUnique col :=
            ((hperm (dropNaUnique col)).mem_iff).mp hcourse
          have hfm : c ∈ col.filterMap id :=
            uniqueFirstAux_subset _ [] c hdnu
          obtain ⟨o, ho, hoc⟩ := List.mem_filterMap.mp hfm
          have hoeq : o = some c := hoc
          rw [← hoeq]
          exact ho

theorem C9_missing_ids_never_scheduled_witness :
    (∀ l : List String, List.Perm (id l) l)
    ∧ scheduleExamsCore dfOne id 7
        = Except.ok
            ([("Saturday", ["A"]), ("Monday", []), ("Tuesday", []),
              ("Wednesday", []), ("Thursday", []), ("Friday", [])],
             [("Saturday", []), ("Monday", []), ("Tuesday", []),
              ("Wednesday", []), ("Thursday", []), ("Friday", [])])
    ∧ some "A" ∈ dfOne.courseCodeCol.getD [] :=
  ⟨fun l => List.Perm.refl l, rfl,
   C9_missing_ids_never_scheduled dfOne id (fun l => List.Perm.refl l) 7
     [("Saturday", ["A"]), ("Monday", []), ("Tuesday", []),
      ("Wednesday", []), ("Thursday", []), ("Friday", [])]
     [("Saturday", []), ("Monday", []), ("Tuesday", []),
      ("Wednesday", []), ("Thursday", []), ("Friday", [])]
     rfl ("Saturday", ["A"]) (by decide) "A" (by decide)⟩
